import Mathlib

/-!
Verification of the Home Assistant MariaDB outlier detector
(`ha_outliers.py`) against its specification.

The database is an external collaborator: each scanned source is modelled
as the data the two queries return for it (the statistics row, and the
list of valid sample rows from which the out-of-bounds fetch filters).
Numeric values are modelled as rationals.
-/

namespace HaOutliers

/-- Configuration constant: standard deviations from mean to flag as outlier. -/
def SIGMA_THRESHOLD : ℚ := 5

/-- Configuration constant: minimum samples required for statistical analysis. -/
def MIN_SAMPLES : ℕ := 200

/-- Configuration constant: exclude values appearing in more than 1% of samples. -/
def FREQUENCY_THRESHOLD : ℚ := 1 / 100

/-- Configuration constant: number of outlier groups per page in the display. -/
def PAGE_SIZE : ℕ := 25

/-- One row returned by the out-of-bounds fetch query:
`SELECT state_id, CAST(state AS DECIMAL(30,10)) as numeric_value, last_updated_ts`. -/
structure StateRow where
  state_id : ℕ
  numeric_value : ℚ
  last_updated_ts : ℚ
deriving DecidableEq, Repr, Inhabited

/-- The data the database returns for one candidate source: the statistics
row (`cnt`, `mean_val`, `std_val` from `COUNT/AVG/STDDEV`) and the source's
valid sample rows, from which the fetch query's `WHERE` clause filters. -/
structure SourceData where
  metadata_id : ℕ
  entity_id : String
  cnt : ℕ
  mean_val : ℚ
  std_val : ℚ
  rows : List StateRow
deriving DecidableEq, Repr, Inhabited

/-- The dict appended to `all_outliers` for each retained row. -/
structure OutlierRec where
  id : ℕ
  metadata_id : ℕ
  entity_id : String
  value : ℚ
  lower_bound : ℚ
  upper_bound : ℚ
  mean : ℚ
  deviation : ℚ
  timestamp : ℚ
  total_samples : ℕ
deriving DecidableEq, Repr, Inhabited

/-- Quantization of a value to 6 significant decimal digits (the decimal
exponent is `Int.log 10`, the rounded mantissa has 6 digits); this models
the f-string key `f"{value:.6g}"` used to bucket near-equal values. -/
def quantize6 (v : ℚ) : ℚ :=
  if v = 0 then 0
  else
    let e : ℤ := Int.log 10 |v|
    let scaled : ℚ := |v| * (10 : ℚ) ^ ((5 : ℤ) - e)
    (if v < 0 then (-1 : ℚ) else 1) * ((round scaled : ℤ) : ℚ) * (10 : ℚ) ^ (e - (5 : ℤ))

/-- Occurrence count of `v`'s quantized key among the fetched rows; this
models `value_counts = Counter(f"{float(r):.6g}" ...)` lookups. -/
def countQuant (outlier_rows : List StateRow) (v : ℚ) : ℕ :=
  (outlier_rows.filter fun r => decide (quantize6 r.numeric_value = quantize6 v)).length

/-- The dict literal appended to `all_outliers` for a retained row. -/
def mkOutlierRec (s : SourceData) (lower upper : ℚ) (r : StateRow) : OutlierRec :=
  { id := r.state_id
    metadata_id := s.metadata_id
    entity_id := s.entity_id
    value := r.numeric_value
    lower_bound := lower
    upper_bound := upper
    mean := s.mean_val
    deviation := |r.numeric_value - s.mean_val| / s.std_val
    timestamp := r.last_updated_ts
    total_samples := s.cnt }

/-- The out-of-bounds fetch query: all of the source's valid samples with
`numeric_value < lower OR numeric_value > upper`, where
`lower/upper = mean ∓ SIGMA_THRESHOLD * std`. -/
def fetchOutOfBounds (s : SourceData) : List StateRow :=
  s.rows.filter fun r =>
    decide (r.numeric_value < s.mean_val - SIGMA_THRESHOLD * s.std_val) ||
    decide (r.numeric_value > s.mean_val + SIGMA_THRESHOLD * s.std_val)

/-- Per-candidate body of the scan loop in `find_outliers_in_states`:
skip sources with too few samples or zero/undefined standard deviation,
fetch rows outside `[lower, upper]`, apply the frequency filter, and build
one outlier record per retained row. -/
def sourceOutliers (min_samples : ℕ) (s : SourceData) : List OutlierRec :=
  if s.cnt < min_samples ∨ s.std_val = 0 then []
  else
    let lower := s.mean_val - SIGMA_THRESHOLD * s.std_val
    let upper := s.mean_val + SIGMA_THRESHOLD * s.std_val
    let outlier_rows := fetchOutOfBounds s
    let keep : StateRow → Bool := fun r =>
      !decide ((countQuant outlier_rows r.numeric_value : ℚ) > (s.cnt : ℚ) * FREQUENCY_THRESHOLD)
    (outlier_rows.filter keep).map (mkOutlierRec s lower upper)

/-- Descending-by-deviation comparator used by the final
`sorted(all_outliers, key=..., reverse=True)`. -/
def byDeviationDesc (a b : OutlierRec) : Bool := decide (b.deviation ≤ a.deviation)

/-- The scan `find_outliers_in_states`: process every candidate source in
order, then sort all produced records descending by deviation. -/
def find_outliers_in_states (sources : List SourceData) (min_samples : ℕ) : List OutlierRec :=
  (sources.flatMap (sourceOutliers min_samples)).mergeSort byDeviationDesc

/-- Direction of an outlier relative to the source mean:
`"above" if o["value"] > o["mean"] else "below"`. -/
inductive Direction where
  | above
  | below
deriving DecidableEq, Repr, Inhabited

/-- Adaptive band width: 1σ bands up to 10σ, 2σ bands up to 20σ, 5σ beyond. -/
def bandWidth (dev : ℚ) : ℕ := if dev < 10 then 1 else if dev < 20 then 2 else 5

/-- Deviation band: `band = int(dev // band_size) * band_size`. -/
def bandOf (dev : ℚ) : ℤ := ⌊dev / (bandWidth dev : ℚ)⌋ * (bandWidth dev : ℤ)

/-- Direction computation for one record. -/
def directionOf (value mean : ℚ) : Direction :=
  if value > mean then .above else .below

/-- Grouping key `(entity_id, band, direction)`. -/
abbrev GroupKey := String × ℤ × Direction

/-- Key of an outlier record, as computed inside the `group_outliers` loop. -/
def keyOf (o : OutlierRec) : GroupKey :=
  (o.entity_id, bandOf o.deviation, directionOf o.value o.mean)

/-- A group dict: the first member's record fields (the `{**o, ...}` spread)
plus the aggregate fields, and the `_removed` review flag (absent, i.e.
`false`, until the review session sets it). -/
structure OutlierGroup extends OutlierRec where
  count : ℕ
  ids : List ℕ
  timestamps : List ℚ
  values : List ℚ
  min_value : ℚ
  max_value : ℚ
  removed : Bool := false
deriving DecidableEq, Repr, Inhabited

/-- Fresh group created when a key is first seen. -/
def mkGroup (o : OutlierRec) : OutlierGroup :=
  { toOutlierRec := o
    count := 1
    ids := [o.id]
    timestamps := [o.timestamp]
    values := [o.value]
    min_value := o.value
    max_value := o.value
    removed := false }

/-- Merge of one further record into an existing group. -/
def mergeGroup (g : OutlierGroup) (o : OutlierRec) : OutlierGroup :=
  { g with
    count := g.count + 1
    ids := g.ids ++ [o.id]
    timestamps := g.timestamps ++ [o.timestamp]
    values := g.values ++ [o.value]
    min_value := min g.min_value o.value
    max_value := max g.max_value o.value }

/-- One iteration of the grouping loop on the insertion-ordered dict,
modelled as an association list (Python dicts keep insertion order; an
update leaves the key's position unchanged, a new key goes to the end). -/
def insertOutlier : List (GroupKey × OutlierGroup) → OutlierRec → List (GroupKey × OutlierGroup)
  | [], o => [(keyOf o, mkGroup o)]
  | (k, g) :: rest, o =>
      if k = keyOf o then (k, mergeGroup g o) :: rest
      else (k, g) :: insertOutlier rest o

/-- The grouping loop over the whole record list. -/
def groupFold (outliers : List OutlierRec) : List (GroupKey × OutlierGroup) :=
  outliers.foldl insertOutlier []

/-- Descending-by-representative-deviation comparator for groups. -/
def byDeviationDescG (a b : OutlierGroup) : Bool := decide (b.deviation ≤ a.deviation)

/-- The grouping engine `group_outliers`: fold the records into the keyed
dict, then sort the group values descending by representative deviation. -/
def group_outliers (outliers : List OutlierRec) : List OutlierGroup :=
  ((groupFold outliers).map Prod.snd).mergeSort byDeviationDescG

/-- Key recomputed from a group's representative record fields (the group
dict does not store its key; it is recoverable because the representative
is a member). -/
def keyOfGroup (g : OutlierGroup) : GroupKey := keyOf g.toOutlierRec

/-- The input records belonging to key `k`, in input order. -/
def groupRecs (outliers : List OutlierRec) (k : GroupKey) : List OutlierRec :=
  outliers.filter fun o => decide (keyOf o = k)

/-- Specification of one finished group for key `k` over input `outliers`:
its representative record fields are the first record with that key, its
member lists enumerate exactly the records with that key in order, and the
aggregates are consistent. -/
def groupSpec (outliers : List OutlierRec) (k : GroupKey) (g : OutlierGroup) : Prop :=
  (groupRecs outliers k).head? = some g.toOutlierRec ∧
  g.ids = (groupRecs outliers k).map OutlierRec.id ∧
  g.timestamps = (groupRecs outliers k).map OutlierRec.timestamp ∧
  g.values = (groupRecs outliers k).map OutlierRec.value ∧
  g.count = (groupRecs outliers k).length ∧
  g.min_value ∈ g.values ∧
  g.max_value ∈ g.values ∧
  (∀ v ∈ g.values, g.min_value ≤ v ∧ v ≤ g.max_value) ∧
  g.removed = false

/-- Invariant of the grouping fold: distinct keys, every accumulated entry
meets `groupSpec` for the records processed so far, and every processed
record's key has an entry. -/
def foldInv (outliers : List OutlierRec) (acc : List (GroupKey × OutlierGroup)) : Prop :=
  (acc.map Prod.fst).Nodup ∧
  (∀ k g, (k, g) ∈ acc → groupSpec outliers k g) ∧
  (∀ o ∈ outliers, keyOf o ∈ acc.map Prod.fst)

/-- An operator input line after `strip().lower()` and classification by the
prompt loop: exactly `"n"`, exactly `"p"`, exactly `"q"`, a line whose first
character is `e` or `d` carrying the result of `int(choice[1:])` (`none`
models a `ValueError`), or anything else. -/
inductive Cmd where
  | n
  | p
  | q
  | act (isEdit : Bool) (arg : Option ℤ)
  | other
deriving DecidableEq, Repr, Inhabited

/-- One pass through the body of the prompt loop in `display_outliers`:
either continue the loop with a (possibly updated) page, or return from the
function (`none` for `q`, a selection triple for a valid `e`/`d` choice). -/
def displayStep (outliers : List OutlierGroup) (total_pages page : ℕ) :
    Cmd → Sum ℕ (Option (Bool × ℕ × OutlierGroup))
  | .n => if page < total_pages - 1 then .inl (page + 1) else .inl page
  | .p => if 0 < page then .inl (page - 1) else .inl page
  | .q => .inr none
  | .act isEdit (some num) =>
      if 1 ≤ num ∧ num ≤ (outliers.length : ℤ) ∧
          (outliers.getD (num.toNat - 1) default).removed = false then
        .inr (some (isEdit, num.toNat - 1, outliers.getD (num.toNat - 1) default))
      else .inl page
  | .act _ none => .inl page
  | .other => .inl page

/-- The prompt loop of `display_outliers`, driven by a finite script of
operator inputs (the real loop blocks for ever more input; the empty script
models cutting the session off there). -/
def displayLoop (outliers : List OutlierGroup) (total_pages : ℕ) :
    ℕ → List Cmd → Option (Bool × ℕ × OutlierGroup)
  | _, [] => none
  | page, c :: cs =>
      match displayStep outliers total_pages page c with
      | .inl pageNext => displayLoop outliers total_pages pageNext cs
      | .inr r => r

/-- Total page count as computed in `display_outliers`. -/
def totalPages (outliers : List OutlierGroup) (page_size : ℕ) : ℕ :=
  (outliers.length + page_size - 1) / page_size

/-- The function `display_outliers`: bail out with `None` when no active
(non-removed) group is left, otherwise clamp the start page and run the
prompt loop. -/
def display_outliers (outliers : List OutlierGroup) (page_size start_page : ℕ)
    (cmds : List Cmd) : Option (Bool × ℕ × OutlierGroup) :=
  let active := outliers.filter fun o => !o.removed
  if active.isEmpty then none
  else
    let tp := totalPages outliers page_size
    let page := if 0 < tp then min start_page (tp - 1) else 0
    displayLoop outliers tp page cmds

/-- Storage-layer effects issued by the mutation functions. -/
inductive DbOp where
  | update (ids : List ℕ) (newState : ℚ)
  | clearOldStateRefs (ids : List ℕ)
  | deleteStates (ids : List ℕ)
  | commit
  | rollback
deriving DecidableEq, Repr

/-- The operator's answer to the `edit_outlier` value prompt: `'c'`,
`'m'`, a string parsing as a number, or one failing `float()`. -/
inductive EditChoice where
  | cancel
  | useMean
  | numeric (v : ℚ)
  | invalid
deriving DecidableEq, Repr, Inhabited

/-- Behaviour of the storage layer during one mutation attempt: queries
succeed, a query raises `mysql.connector.Error` inside the `try` (caught,
rolled back), or the connection is lost at cursor acquisition, raising
`OperationalError` outside the `try` (propagates to `main`). -/
inductive DbOutcome where
  | ok
  | execError
  | connLost
deriving DecidableEq, Repr, Inhabited

/-- The function `edit_outlier`. Result `some b` is the Python return value,
`none` models an `OperationalError` escaping to `main`; the second component
records the storage effects. -/
def edit_outlier (outlier : OutlierGroup) (choice : EditChoice) (db : DbOutcome) :
    Option Bool × List DbOp :=
  match choice with
  | .cancel => (some false, [])
  | .invalid => (some false, [])
  | .useMean =>
      match db with
      | .connLost => (none, [])
      | .execError => (some false, [.rollback])
      | .ok => (some true, [.update outlier.ids outlier.mean, .commit])
  | .numeric v =>
      match db with
      | .connLost => (none, [])
      | .execError => (some false, [.rollback])
      | .ok => (some true, [.update outlier.ids v, .commit])

/-- The function `delete_outlier`: an explicit confirmation gates any
storage contact; deletion first clears dangling `old_state_id` references,
then deletes, in one transaction. -/
def delete_outlier (outlier : OutlierGroup) (confirm : Bool) (db : DbOutcome) :
    Option Bool × List DbOp :=
  if confirm = false then (some false, [])
  else
    match db with
    | .connLost => (none, [])
    | .execError => (some false, [.rollback])
    | .ok =>
        (some true, [.clearOldStateRefs outlier.ids, .deleteStates outlier.ids, .commit])

/-- Operator and storage behaviour for one iteration of the `main` review
loop: the prompt-loop inputs, the edit prompt answer, the delete
confirmation, and the storage outcome. -/
structure IterInput where
  cmds : List Cmd
  editChoice : EditChoice
  deleteConfirm : Bool
  db : DbOutcome
deriving Repr, Inhabited

/-- Dispatch of the selected action to the mutation functions, as in
`(action == "e" and edit_outlier(...)) or (action == "d" and delete_outlier(...))`. -/
def runMutation (isEdit : Bool) (sel : OutlierGroup) (it : IterInput) :
    Option Bool × List DbOp :=
  if isEdit then edit_outlier sel it.editChoice it.db
  else delete_outlier sel it.deleteConfirm it.db

/-- Mark the group at `idx` removed: `all_outliers[idx]["_removed"] = True`. -/
def markRemoved (groups : List OutlierGroup) (idx : ℕ) : List OutlierGroup :=
  groups.set idx { groups.getD idx default with removed := true }

/-- The body of the `main` review loop after `display_outliers` returned a
selection: remember the selection's page, run the mutation, and set the
removed flag exactly on reported success (a lost connection reconnects and
continues with the state intact). -/
def sessionStep (groups : List OutlierGroup) (isEdit : Bool) (idx : ℕ)
    (sel : OutlierGroup) (it : IterInput) : List OutlierGroup × ℕ :=
  let current_page := idx / PAGE_SIZE
  match (runMutation isEdit sel it).1 with
  | some true => (markRemoved groups idx, current_page)
  | _ => (groups, current_page)

/-- The `main` review loop (`while result := display_outliers(...)`), driven
by a finite script of per-iteration inputs; returns the final group list and
page. -/
def session : List OutlierGroup → ℕ → List IterInput → List OutlierGroup × ℕ
  | groups, page, [] => (groups, page)
  | groups, page, it :: rest =>
      match display_outliers groups PAGE_SIZE page it.cmds with
      | none => (groups, page)
      | some (isEdit, idx, sel) =>
          let next := sessionStep groups isEdit idx sel it
          session next.1 next.2 rest

/-! ### Concrete example data (used to instantiate theorems with hypotheses) -/

/-- Example outlier record: value 42 against mean 20, std 1 (deviation 22). -/
def egRecA : OutlierRec :=
  { id := 1
    metadata_id := 7
    entity_id := "sensor.temp"
    value := 42
    lower_bound := 15
    upper_bound := 25
    mean := 20
    deviation := 22
    timestamp := 100
    total_samples := 300 }

/-- Example source: 300 samples, mean 20, std 1 (bounds [15, 25]); one
sample far outside the bounds, one inside. The scan turns it into exactly
`egRecA`. -/
def egSource : SourceData :=
  { metadata_id := 7
    entity_id := "sensor.temp"
    cnt := 300
    mean_val := 20
    std_val := 1
    rows := [⟨1, 42, 100⟩, ⟨2, 21, 101⟩] }

/-- Example out-of-bounds rows for the frequency filter: the value 200
occurs 11 times, the value 300 occurs 9 times. -/
def egRowsFreq : List StateRow :=
  [⟨1, 200, 0⟩, ⟨2, 200, 0⟩, ⟨3, 200, 0⟩, ⟨4, 200, 0⟩, ⟨5, 200, 0⟩,
   ⟨6, 200, 0⟩, ⟨7, 200, 0⟩, ⟨8, 200, 0⟩, ⟨9, 200, 0⟩, ⟨10, 200, 0⟩,
   ⟨11, 200, 0⟩,
   ⟨12, 300, 0⟩, ⟨13, 300, 0⟩, ⟨14, 300, 0⟩, ⟨15, 300, 0⟩, ⟨16, 300, 0⟩,
   ⟨17, 300, 0⟩, ⟨18, 300, 0⟩, ⟨19, 300, 0⟩, ⟨20, 300, 0⟩]

/-- Example source with 1000 total samples, mean 0, std 1, and the
`egRowsFreq` samples (all far outside the bounds [-5, 5]). -/
def egSourceFreq : SourceData :=
  { metadata_id := 8
    entity_id := "sensor.flow"
    cnt := 1000
    mean_val := 0
    std_val := 1
    rows := egRowsFreq }

/-- A row whose quantized value occurs 11 times among `egRowsFreq`. -/
def egRowA : StateRow := ⟨1, 200, 0⟩

/-- A row whose quantized value occurs 9 times among `egRowsFreq`. -/
def egRowB : StateRow := ⟨12, 300, 0⟩

/-- Example record with deviation 7.5 (band 7, direction above). -/
def egRec1 : OutlierRec :=
  { id := 31
    metadata_id := 7
    entity_id := "sensor.temp"
    value := 55 / 2
    lower_bound := 15
    upper_bound := 25
    mean := 20
    deviation := 15 / 2
    timestamp := 200
    total_samples := 300 }

/-- Example record with deviation 7.2 (same key as `egRec1`). -/
def egRec2 : OutlierRec :=
  { id := 32
    metadata_id := 7
    entity_id := "sensor.temp"
    value := 136 / 5
    lower_bound := 15
    upper_bound := 25
    mean := 20
    deviation := 36 / 5
    timestamp := 201
    total_samples := 300 }

/-- Example record list sorted descending by deviation, both records in the
same (entity, band, direction) group. -/
def egOs : List OutlierRec := [egRec1, egRec2]

/-- Example singleton group built from `egRecA`. -/
def egGroupA : OutlierGroup := mkGroup egRecA

/-- Example group already marked removed. -/
def egGroupRemoved : OutlierGroup := { mkGroup egRecA with removed := true }

/-- Example iteration input: an edit using the mean that hits a storage
error inside the transaction. -/
def egIterEditFail : IterInput :=
  { cmds := []
    editChoice := .useMean
    deleteConfirm := false
    db := .execError }

/-- Example list of 26 groups, occupying two display pages of 25. -/
def egGroups26 : List OutlierGroup := List.replicate 26 egGroupA

/-- Example iteration input: select group 26 (on the second page) for edit,
then lose the connection at cursor acquisition. -/
def egIterConnLost : IterInput :=
  { cmds := [.act true (some 26)]
    editChoice := .useMean
    deleteConfirm := true
    db := .connLost }

/-! ### Helper lemmas -/

/-- Ceiling-division characterization of the page count. -/
lemma totalPages_eq_ceil (outliers : List OutlierGroup) (page_size : ℕ)
    (hps : 0 < page_size) :
    ((totalPages outliers page_size : ℕ) : ℤ) =
      ⌈(outliers.length : ℚ) / (page_size : ℚ)⌉ := by
  have key : ∀ n : ℕ, (((n + page_size - 1) / page_size : ℕ) : ℤ) =
      ⌈(n : ℚ) / (page_size : ℚ)⌉ := by
    intro n
    obtain ⟨r, hr, hdr⟩ : ∃ r, r < page_size ∧
        page_size * ((n + page_size - 1) / page_size) + r = n + page_size - 1 :=
      ⟨_, Nat.mod_lt _ hps, Nat.div_add_mod _ _⟩
    set q := (n + page_size - 1) / page_size with hq
    have h1 : n ≤ page_size * q := by omega
    have h2 : page_size * q < n + page_size := by omega
    have hps' : (0 : ℚ) < (page_size : ℚ) := by exact_mod_cast hps
    symm
    rw [Int.ceil_eq_iff]
    refine ⟨?_, ?_⟩
    · rw [lt_div_iff₀ hps']
      have h2' : (page_size : ℚ) * (q : ℚ) < (n : ℚ) + (page_size : ℚ) := by
        exact_mod_cast h2
      push_cast
      linarith
    · rw [div_le_iff₀ hps']
      have h1' : (n : ℚ) ≤ (page_size : ℚ) * (q : ℚ) := by exact_mod_cast h1
      push_cast
      linarith
  exact key outliers.length

/-- Keys of the accumulator after one insertion: unchanged when the key is
present, appended at the end when it is new. -/
lemma insertOutlier_keys (acc : List (GroupKey × OutlierGroup)) (o : OutlierRec) :
    (insertOutlier acc o).map Prod.fst =
      if keyOf o ∈ acc.map Prod.fst then acc.map Prod.fst
      else acc.map Prod.fst ++ [keyOf o] := by
  induction acc with
  | nil => simp [insertOutlier]
  | cons hd tl ih =>
    obtain ⟨k, g⟩ := hd
    by_cases hk : k = keyOf o
    · subst hk
      simp [insertOutlier]
    · rw [insertOutlier, if_neg hk]
      by_cases hmem : keyOf o ∈ tl.map Prod.fst
      · simp [hmem, ih, Ne.symm hk]
      · simp [hmem, ih, Ne.symm hk]

/-- Membership with a key different from the inserted record's is
untouched by the insertion. -/
lemma mem_insertOutlier_of_ne {k : GroupKey} {g : OutlierGroup}
    (acc : List (GroupKey × OutlierGroup)) (o : OutlierRec) (hne : k ≠ keyOf o) :
    ((k, g) ∈ insertOutlier acc o) ↔ (k, g) ∈ acc := by
  induction acc with
  | nil => simp [insertOutlier, hne]
  | cons hd tl ih =>
    obtain ⟨k', g'⟩ := hd
    by_cases hk : k' = keyOf o
    · subst hk
      rw [insertOutlier, if_pos rfl]
      simp only [List.mem_cons]
      constructor
      · rintro (heq | h)
        · exact absurd (congrArg Prod.fst heq) hne
        · exact Or.inr h
      · rintro (heq | h)
        · exact absurd (congrArg Prod.fst heq) hne
        · exact Or.inr h
    · rw [insertOutlier, if_neg hk]
      simp only [List.mem_cons, ih]

/-- Inserting a record whose key is absent creates exactly the fresh
singleton group under that key. -/
lemma mem_insertOutlier_new {g : OutlierGroup}
    (acc : List (GroupKey × OutlierGroup)) (o : OutlierRec)
    (hnew : keyOf o ∉ acc.map Prod.fst) :
    ((keyOf o, g) ∈ insertOutlier acc o) ↔ g = mkGroup o := by
  induction acc with
  | nil => simp [insertOutlier]
  | cons hd tl ih =>
    obtain ⟨k', g'⟩ := hd
    have hk : k' ≠ keyOf o := by
      intro h
      exact hnew (by simp [h])
    have htl : keyOf o ∉ tl.map Prod.fst := by
      intro h
      exact hnew (by simp [h])
    rw [insertOutlier, if_neg hk]
    simp only [List.mem_cons, ih htl]
    constructor
    · rintro (heq | h)
      · exact absurd (congrArg Prod.fst heq).symm hk
      · exact h
    · exact fun h => Or.inr h

/-- Inserting a record whose key is present merges it into that key's
(unique, by key nodup) group. -/
lemma mem_insertOutlier_merge {g g0 : OutlierGroup}
    (acc : List (GroupKey × OutlierGroup)) (o : OutlierRec)
    (hnd : (acc.map Prod.fst).Nodup) (hg0 : (keyOf o, g0) ∈ acc) :
    ((keyOf o, g) ∈ insertOutlier acc o) ↔ g = mergeGroup g0 o := by
  induction acc with
  | nil => simp at hg0
  | cons hd tl ih =>
    obtain ⟨k', g'⟩ := hd
    by_cases hk : k' = keyOf o
    · subst hk
      have hnd' : (keyOf o :: tl.map Prod.fst).Nodup := by simpa using hnd
      have hnotin : keyOf o ∉ tl.map Prod.fst := (List.nodup_cons.mp hnd').1
      have hg0' : g0 = g' := by
        rcases List.mem_cons.mp hg0 with heq | htl
        · exact congrArg Prod.snd heq
        · exact absurd (List.mem_map.mpr ⟨(keyOf o, g0), htl, rfl⟩) hnotin
      subst hg0'
      rw [insertOutlier, if_pos rfl]
      simp only [List.mem_cons]
      constructor
      · rintro (heq | h)
        · exact congrArg Prod.snd heq
        · exact absurd (List.mem_map.mpr ⟨(keyOf o, g), h, rfl⟩) hnotin
      · rintro rfl
        exact Or.inl rfl
    · have hg0tl : (keyOf o, g0) ∈ tl := by
        rcases List.mem_cons.mp hg0 with heq | htl
        · exact absurd (congrArg Prod.fst heq).symm hk
        · exact htl
      have hnd' : (k' :: tl.map Prod.fst).Nodup := by simpa using hnd
      have hndtl : (tl.map Prod.fst).Nodup := (List.nodup_cons.mp hnd').2
      rw [insertOutlier, if_neg hk]
      simp only [List.mem_cons, ih hndtl hg0tl]
      constructor
      · rintro (heq | h)
        · exact absurd (congrArg Prod.fst heq).symm hk
        · exact h
      · exact fun h => Or.inr h

/-- Exhaustive description of the entries of the accumulator after one
insertion. -/
lemma mem_insertOutlier_cases {k : GroupKey} {g : OutlierGroup}
    (acc : List (GroupKey × OutlierGroup)) (o : OutlierRec)
    (hnd : (acc.map Prod.fst).Nodup) (hm : (k, g) ∈ insertOutlier acc o) :
    (k ≠ keyOf o ∧ (k, g) ∈ acc) ∨
    (k = keyOf o ∧ keyOf o ∉ acc.map Prod.fst ∧ g = mkGroup o) ∨
    (k = keyOf o ∧ ∃ g0, (keyOf o, g0) ∈ acc ∧ g = mergeGroup g0 o) := by
  by_cases hk : k = keyOf o
  · subst hk
    by_cases hpres : keyOf o ∈ acc.map Prod.fst
    · obtain ⟨⟨k0, g0⟩, hg0, hfst⟩ := List.mem_map.mp hpres
      have : k0 = keyOf o := hfst
      subst this
      exact Or.inr (Or.inr ⟨rfl, g0, hg0,
        (mem_insertOutlier_merge acc o hnd hg0).mp hm⟩)
    · exact Or.inr (Or.inl ⟨rfl, hpres, (mem_insertOutlier_new acc o hpres).mp hm⟩)
  · exact Or.inl ⟨hk, (mem_insertOutlier_of_ne acc o hk).mp hm⟩

/-- One step of the grouping fold preserves the invariant, extending the
processed record list by the inserted record. -/
lemma foldInv_insert (outliers : List OutlierRec)
    (acc : List (GroupKey × OutlierGroup)) (o : OutlierRec)
    (h : foldInv outliers acc) :
    foldInv (outliers ++ [o]) (insertOutlier acc o) := by
  obtain ⟨hnd, hspec, hcov⟩ := h
  have hkeys := insertOutlier_keys acc o
  refine ⟨?_, ?_, ?_⟩
  · rw [hkeys]
    split_ifs with hmem
    · exact hnd
    · exact hnd.append (List.nodup_singleton _) (List.disjoint_singleton.mpr hmem)
  · intro k g hm
    rcases mem_insertOutlier_cases acc o hnd hm with
      ⟨hne, hacc⟩ | ⟨rfl, hnew, rfl⟩ | ⟨rfl, g0, hg0, rfl⟩
    · have hrecs : groupRecs (outliers ++ [o]) k = groupRecs outliers k := by
        rw [groupRecs, List.filter_append]
        have hone : List.filter (fun o' => decide (keyOf o' = k)) [o] = [] := by
          simp [Ne.symm hne]
        rw [hone, List.append_nil, ← groupRecs]
      simpa only [groupSpec, hrecs] using hspec k g hacc
    · have hos : groupRecs outliers (keyOf o) = [] := by
        rw [groupRecs, List.filter_eq_nil_iff]
        intro a ha hkey
        rw [decide_eq_true_iff] at hkey
        exact hnew (hkey ▸ hcov a ha)
      have hrecs : groupRecs (outliers ++ [o]) (keyOf o) = [o] := by
        rw [groupRecs, List.filter_append, ← groupRecs, hos]
        simp
      simp [groupSpec, hrecs, mkGroup]
    · obtain ⟨hhead, hids, hts, hvals, hcount, hmin, hmax, hbounds, hrem⟩ :=
        hspec (keyOf o) g0 hg0
      have hrecs : groupRecs (outliers ++ [o]) (keyOf o) =
          groupRecs outliers (keyOf o) ++ [o] := by
        rw [groupRecs, List.filter_append, ← groupRecs]
        simp
      rw [groupSpec, hrecs]
      refine ⟨?_, ?_, ?_, ?_, ?_, ?_, ?_, ?_, ?_⟩
      · rw [List.head?_append, hhead]
        rfl
      · simp only [mergeGroup, List.map_append]
        rw [hids]
        rfl
      · simp only [mergeGroup, List.map_append]
        rw [hts]
        rfl
      · simp only [mergeGroup, List.map_append]
        rw [hvals]
        rfl
      · simp only [mergeGroup, List.length_append]
        rw [hcount]
        rfl
      · simp only [mergeGroup]
        rcases min_choice g0.min_value o.value with hmc | hmc
        · rw [hmc]
          exact List.mem_append.mpr (Or.inl hmin)
        · rw [hmc]
          exact List.mem_append.mpr (Or.inr (List.mem_singleton.mpr rfl))
      · simp only [mergeGroup]
        rcases max_choice g0.max_value o.value with hmc | hmc
        · rw [hmc]
          exact List.mem_append.mpr (Or.inl hmax)
        · rw [hmc]
          exact List.mem_append.mpr (Or.inr (List.mem_singleton.mpr rfl))
      · intro v hv
        simp only [mergeGroup] at hv ⊢
        rcases List.mem_append.mp hv with h1 | h2
        · obtain ⟨hb1, hb2⟩ := hbounds v h1
          exact ⟨le_trans (min_le_left _ _) hb1, le_trans hb2 (le_max_left _ _)⟩
        · rw [List.mem_singleton] at h2
          subst h2
          exact ⟨min_le_right _ _, le_max_right _ _⟩
      · simpa [mergeGroup] using hrem
  · intro o' ho'
    rw [hkeys]
    rcases List.mem_append.mp ho' with h1 | h2
    · have hm := hcov o' h1
      split_ifs with hmem
      · exact hm
      · exact List.mem_append.mpr (Or.inl hm)
    · rw [List.mem_singleton] at h2
      subst h2
      split_ifs with hmem
      · exact hmem
      · exact List.mem_append.mpr (Or.inr (List.mem_singleton.mpr rfl))

/-- The invariant propagates through the whole fold. -/
lemma foldInv_foldl (rest : List OutlierRec) :
    ∀ (pre : List OutlierRec) (acc : List (GroupKey × OutlierGroup)),
      foldInv pre acc → foldInv (pre ++ rest) (rest.foldl insertOutlier acc) := by
  induction rest with
  | nil =>
    intro pre acc h
    simpa using h
  | cons o rest ih =>
    intro pre acc h
    have step := foldInv_insert pre acc o h
    have := ih (pre ++ [o]) (insertOutlier acc o) step
    rw [List.foldl_cons]
    rw [List.append_cons]
    exact this

/-- The grouping fold satisfies the invariant for the full input. -/
lemma foldInv_groupFold (outliers : List OutlierRec) :
    foldInv outliers (groupFold outliers) := by
  have h0 : foldInv [] [] := ⟨List.nodup_nil, by simp, by simp⟩
  have := foldInv_foldl outliers [] [] h0
  simpa [groupFold] using this

/-- Any entry meeting its group specification is keyed by the key
recomputed from its representative fields. -/
lemma key_eq_keyOfGroup (outliers : List OutlierRec) (k : GroupKey)
    (g : OutlierGroup) (h : groupSpec outliers k g) : k = keyOfGroup g := by
  obtain ⟨hhead, _⟩ := h
  have hmem : g.toOutlierRec ∈ groupRecs outliers k := by
    cases hrec : groupRecs outliers k with
    | nil => rw [hrec] at hhead; simp at hhead
    | cons a t =>
        rw [hrec] at hhead
        simp only [List.head?_cons, Option.some.injEq] at hhead
        subst hhead
        exact List.mem_cons_self _ _
  have hk := (List.mem_filter.mp hmem).2
  rw [decide_eq_true_iff] at hk
  exact hk.symm

/-- Two entries of the fold sharing a key are the same entry. -/
lemma groupFold_key_unique (outliers : List OutlierRec) {k : GroupKey}
    {g1 g2 : OutlierGroup} (h1 : (k, g1) ∈ groupFold outliers)
    (h2 : (k, g2) ∈ groupFold outliers) : g1 = g2 := by
  have hnd := (foldInv_groupFold outliers).1
  have := List.inj_on_of_nodup_map hnd h1 h2 rfl
  exact congrArg Prod.snd this

/-! ### Claim theorems -/

/-- C3: for every outlier record the grouping engine computes band width
`w = 1` if `deviation < 10`, else `2` if `deviation < 20`, else `5`, and
`band = floor(deviation / w) * w`; in particular deviation 7.2 yields band 7,
deviation 14.7 yields band 14, and deviation 23.0 yields band 20. -/
theorem band_assignment :
    (∀ dev : ℚ,
      bandOf dev =
        if dev < 10 then ⌊dev / 1⌋ * 1
        else if dev < 20 then ⌊dev / 2⌋ * 2
        else ⌊dev / 5⌋ * 5) ∧
    bandOf (72 / 10) = 7 ∧ bandOf (147 / 10) = 14 ∧ bandOf 23 = 20 ∧
    (∀ o : OutlierRec,
      keyOf o = (o.entity_id, bandOf o.deviation, directionOf o.value o.mean)) := by
  refine ⟨fun dev => ?_, ?_, ?_, ?_, fun o => rfl⟩
  · unfold bandOf bandWidth
    split_ifs <;> norm_num
  · unfold bandOf bandWidth
    norm_num
  · unfold bandOf bandWidth
    norm_num
  · unfold bandOf bandWidth
    norm_num

/-- C6: an edit/delete selection is accepted exactly when it is a 1-based
index into the full (unpaginated) group list whose target group is not
removed; any malformed, out-of-range, or already-removed selection leaves
the prompt loop's state unchanged and re-prompts. -/
theorem selection_validation (outliers : List OutlierGroup) (tp page : ℕ)
    (isEdit : Bool) (z : ℤ) (rest : List Cmd) :
    (1 ≤ z ∧ z ≤ (outliers.length : ℤ) ∧
        (outliers.getD (z.toNat - 1) default).removed = false →
      displayLoop outliers tp page (.act isEdit (some z) :: rest) =
        some (isEdit, z.toNat - 1, outliers.getD (z.toNat - 1) default)) ∧
    (¬(1 ≤ z ∧ z ≤ (outliers.length : ℤ) ∧
        (outliers.getD (z.toNat - 1) default).removed = false) →
      displayLoop outliers tp page (.act isEdit (some z) :: rest) =
        displayLoop outliers tp page rest) ∧
    displayLoop outliers tp page (.act isEdit none :: rest) =
      displayLoop outliers tp page rest ∧
    displayLoop outliers tp page (.other :: rest) =
      displayLoop outliers tp page rest := by
  refine ⟨fun h => ?_, fun h => ?_, ?_, ?_⟩
  · simp only [displayLoop, displayStep, if_pos h]
  · simp only [displayLoop, displayStep, if_neg h]
  · simp only [displayLoop, displayStep]
  · simp only [displayLoop, displayStep]

/-- C8: while browsing, `next` advances the page by one bounded above by
`total_pages - 1`, `prev` decrements bounded below by 0, `quit` ends the
loop, any unrecognized command re-prompts unchanged, and
`total_pages = ceil(group_count / page_size)`. -/
theorem navigation_commands (outliers : List OutlierGroup) (tp page page_size : ℕ)
    (hpage : page ≤ tp - 1) (hps : 0 < page_size) :
    displayStep outliers tp page .n = .inl (min (page + 1) (tp - 1)) ∧
    displayStep outliers tp page .p = .inl (page - 1) ∧
    displayStep outliers tp page .q = .inr none ∧
    displayStep outliers tp page .other = .inl page ∧
    ((totalPages outliers page_size : ℕ) : ℤ) =
      ⌈(outliers.length : ℚ) / (page_size : ℚ)⌉ := by
  refine ⟨?_, ?_, rfl, rfl, totalPages_eq_ceil outliers page_size hps⟩
  · simp only [displayStep]
    split_ifs with h
    · have : page + 1 ≤ tp - 1 := by omega
      simp [Nat.min_eq_left this]
    · have : page = tp - 1 := by omega
      simp [this]
  · simp only [displayStep]
    split_ifs with h
    · rfl
    · have : page = 0 := by omega
      simp [this]

/-- C9: when every group is removed (or the list is empty), the review
display returns `None` independently of any operator input, and the session
loop terminates at once with the state unchanged. -/
theorem all_removed_terminates (groups : List OutlierGroup)
    (h : ∀ g ∈ groups, g.removed = true) :
    (∀ page_size start_page cmds,
      display_outliers groups page_size start_page cmds = none) ∧
    (∀ page script, session groups page script = (groups, page)) := by
  have hact : groups.filter (fun o => !o.removed) = [] :=
    List.filter_eq_nil_iff.mpr (by intro g hg; simp [h g hg])
  have hdisp : ∀ page_size start_page cmds,
      display_outliers groups page_size start_page cmds = none := by
    intro ps sp cmds
    simp [display_outliers, hact]
  refine ⟨hdisp, fun page script => ?_⟩
  cases script with
  | nil => rfl
  | cons it rest => simp [session, hdisp]

/-- C7: a mutation that does not report success leaves the group list (and
so the selected group's removed flag) unchanged; the removed flag ends up
true exactly when the mutation reports success; the list never shrinks; and
a storage-layer error always ends in a rollback (or never touched storage). -/
theorem mutation_rollback_and_removed_flag
    (groups : List OutlierGroup) (idx : ℕ) (sel : OutlierGroup)
    (isEdit : Bool) (it : IterInput)
    (hidx : idx < groups.length)
    (hrem : (groups.getD idx default).removed = false) :
    ((runMutation isEdit sel it).1 ≠ some true →
      (sessionStep groups isEdit idx sel it).1 = groups) ∧
    (((sessionStep groups isEdit idx sel it).1.getD idx default).removed = true ↔
      (runMutation isEdit sel it).1 = some true) ∧
    (sessionStep groups isEdit idx sel it).1.length = groups.length ∧
    (it.db = .execError →
      (runMutation isEdit sel it).2 = [DbOp.rollback] ∨
        (runMutation isEdit sel it).2 = []) := by
  have hmark : ((markRemoved groups idx).getD idx default).removed = true := by
    rw [markRemoved, List.getD_eq_getElem?_getD, List.getElem?_set_self hidx]
    rfl
  have hmarklen : (markRemoved groups idx).length = groups.length := by
    rw [markRemoved, List.length_set]
  rw [List.getD_eq_getElem?_getD] at hrem
  rw [List.getD_eq_getElem?_getD] at hmark
  have hops : it.db = .execError →
      (runMutation isEdit sel it).2 = [DbOp.rollback] ∨
        (runMutation isEdit sel it).2 = [] := by
    intro hdb
    cases isEdit
    · cases hcf : it.deleteConfirm <;> simp [runMutation, delete_outlier, hcf, hdb]
    · cases hc : it.editChoice <;> simp [runMutation, edit_outlier, hc, hdb]
  rcases hres : (runMutation isEdit sel it).1 with _ | b
  · exact ⟨fun _ => by simp [sessionStep, hres],
      by simp [sessionStep, hres, hrem], by simp [sessionStep, hres], hops⟩
  · cases b
    · exact ⟨fun _ => by simp [sessionStep, hres],
        by simp [sessionStep, hres, hrem], by simp [sessionStep, hres], hops⟩
    · refine ⟨fun hne => absurd rfl hne, ?_, ?_, hops⟩
      · simp [sessionStep, hres, hmark]
      · simp [sessionStep, hres, hmarklen]

/-- C10: acceptance of a selection does not depend on the page being
displayed; and after any mutation attempt on the group at list index `idx`
(success, failure, or connection loss alike) the session resumes browsing at
page `idx / PAGE_SIZE`, the page containing that group. -/
theorem selection_any_page_and_resume
    (groups : List OutlierGroup) (tp p p2 : ℕ) (isEdit : Bool) (z : ℤ)
    (idx : ℕ) (sel : OutlierGroup) (it : IterInput) (page : ℕ)
    (rest : List IterInput) :
    (displayStep groups tp p (.act isEdit (some z)) =
        displayStep groups tp p2 (.act isEdit (some z)) ∨
      (displayStep groups tp p (.act isEdit (some z)) = .inl p ∧
        displayStep groups tp p2 (.act isEdit (some z)) = .inl p2)) ∧
    (sessionStep groups isEdit idx sel it).2 = idx / PAGE_SIZE ∧
    (display_outliers groups PAGE_SIZE page it.cmds = some (isEdit, idx, sel) →
      session groups page (it :: rest) =
        session (sessionStep groups isEdit idx sel it).1 (idx / PAGE_SIZE) rest) := by
  have hpage : (sessionStep groups isEdit idx sel it).2 = idx / PAGE_SIZE := by
    rcases hres : (runMutation isEdit sel it).1 with _ | b
    · simp [sessionStep, hres]
    · cases b <;> simp [sessionStep, hres]
  refine ⟨?_, hpage, fun hdisp => ?_⟩
  · by_cases hv : 1 ≤ z ∧ z ≤ (groups.length : ℤ) ∧
        (groups.getD (z.toNat - 1) default).removed = false
    · left
      simp only [displayStep, if_pos hv]
    · right
      exact ⟨by simp only [displayStep, if_neg hv], by simp only [displayStep, if_neg hv]⟩
  · rw [session, hdisp]
    simp only [hpage]

theorem mutation_rollback_and_removed_flag_witness :
    (sessionStep [egGroupA] true 0 egGroupA egIterEditFail).1 = [egGroupA] ∧
    (runMutation true egGroupA egIterEditFail).2 = [DbOp.rollback] := by
  have h := mutation_rollback_and_removed_flag [egGroupA] 0 egGroupA true egIterEditFail
    (by norm_num) (by rfl)
  refine ⟨h.1 ?_, ?_⟩
  · simp [runMutation, edit_outlier, egIterEditFail]
  · rcases h.2.2.2 rfl with hop | hop
    · exact hop
    · simp [runMutation, edit_outlier, egIterEditFail] at hop

theorem selection_validation_witness :
    displayLoop [egGroupA, egGroupRemoved] 1 0 [.act true (some 1)] =
      some (true, 0, egGroupA) := by
  have h := (selection_validation [egGroupA, egGroupRemoved] 1 0 true 1 []).1
    ⟨by norm_num, by norm_num, rfl⟩
  simpa using h

theorem navigation_commands_witness :
    displayStep [egGroupA] 3 1 .n = .inl (min (1 + 1) (3 - 1)) ∧
    displayStep [egGroupA] 3 1 .p = .inl (1 - 1) ∧
    displayStep [egGroupA] 3 1 .q = .inr none ∧
    displayStep [egGroupA] 3 1 .other = .inl 1 ∧
    ((totalPages [egGroupA] 25 : ℕ) : ℤ) =
      ⌈(([egGroupA] : List OutlierGroup).length : ℚ) / (25 : ℚ)⌉ :=
  navigation_commands [egGroupA] 3 1 25 (by norm_num) (by norm_num)

theorem all_removed_terminates_witness :
    display_outliers [egGroupRemoved] 25 0 [.q] = none ∧
    session [egGroupRemoved] 0 [egIterEditFail] = ([egGroupRemoved], 0) := by
  have hall : ∀ g ∈ [egGroupRemoved], g.removed = true := by
    intro g hg
    simp only [List.mem_singleton] at hg
    subst hg
    rfl
  exact ⟨(all_removed_terminates [egGroupRemoved] hall).1 25 0 [.q],
    (all_removed_terminates [egGroupRemoved] hall).2 0 [egIterEditFail]⟩

theorem selection_any_page_and_resume_witness :
    session egGroups26 0 [egIterConnLost] =
      session (sessionStep egGroups26 true 25 egGroupA egIterConnLost).1 1 [] := by
  have h := (selection_any_page_and_resume egGroups26 2 0 1 true 26 25 egGroupA
    egIterConnLost 0 []).2.2
  have hdisp : display_outliers egGroups26 PAGE_SIZE 0 egIterConnLost.cmds =
      some (true, 25, egGroupA) := by
    have h25 : Int.toNat 26 - 1 = 25 := rfl
    have hget : egGroups26.getD 25 default = egGroupA := by
      rw [List.getD_eq_getElem?_getD, egGroups26, List.getElem?_replicate]
      norm_num
    have hv : (1 : ℤ) ≤ 26 ∧ (26 : ℤ) ≤ (egGroups26.length : ℤ) ∧
        egGroupA.removed = false :=
      ⟨by norm_num, by norm_num [egGroups26], rfl⟩
    have hne : ¬(egGroups26.filter fun o => !o.removed).isEmpty = true := by
      rw [egGroups26, List.filter_replicate]
      norm_num [egGroupA]
      rfl
    have htp : totalPages egGroups26 PAGE_SIZE = 2 := by
      norm_num [totalPages, egGroups26, PAGE_SIZE]
    have hstep : displayStep egGroups26 2 0 (.act true (some 26)) =
        .inr (some (true, 25, egGroupA)) := by
      simp only [displayStep, h25, hget]
      rw [if_pos hv]
    have hloop : displayLoop egGroups26 2 0 [.act true (some 26)] =
        some (true, 25, egGroupA) := by
      simp only [displayLoop, hstep]
    show display_outliers egGroups26 PAGE_SIZE 0 [.act true (some 26)] = _
    simp only [display_outliers]
    rw [if_neg hne, htp]
    norm_num
    exact hloop
  have := h hdisp
  norm_num [PAGE_SIZE] at this
  exact this

/-- C1: every record produced by the scan has
`deviation = |value - mean| / std_dev` for its source's statistics,
`deviation ≥ SIGMA_THRESHOLD`, and its value lies strictly outside
`[mean - k*std, mean + k*std]`, so values inside the band are never
produced. -/
theorem find_outliers_deviation_spec (sources : List SourceData) (min_samples : ℕ)
    (hstd : ∀ s ∈ sources, 0 ≤ s.std_val) :
    ∀ rec ∈ find_outliers_in_states sources min_samples,
      ∃ s ∈ sources,
        rec.metadata_id = s.metadata_id ∧
        rec.mean = s.mean_val ∧
        rec.total_samples = s.cnt ∧
        rec.deviation = |rec.value - s.mean_val| / s.std_val ∧
        SIGMA_THRESHOLD ≤ rec.deviation ∧
        rec.lower_bound = s.mean_val - SIGMA_THRESHOLD * s.std_val ∧
        rec.upper_bound = s.mean_val + SIGMA_THRESHOLD * s.std_val ∧
        (rec.value < rec.lower_bound ∨ rec.upper_bound < rec.value) := by
  intro rec hrec
  rw [find_outliers_in_states, (List.mergeSort_perm _ _).mem_iff, List.mem_flatMap] at hrec
  obtain ⟨s, hs, hmem⟩ := hrec
  refine ⟨s, hs, ?_⟩
  rw [sourceOutliers] at hmem
  split_ifs at hmem with hguard
  · simp at hmem
  · push_neg at hguard
    obtain ⟨hcnt, hstdne⟩ := hguard
    have hstdpos : 0 < s.std_val := lt_of_le_of_ne (hstd s hs) (Ne.symm hstdne)
    simp only [List.mem_map] at hmem
    obtain ⟨r, hr, heq⟩ := hmem
    have hrfetch : r ∈ fetchOutOfBounds s := (List.mem_filter.mp hr).1
    have hbound := (List.mem_filter.mp hrfetch).2
    rw [Bool.or_eq_true, decide_eq_true_iff, decide_eq_true_iff] at hbound
    subst heq
    refine ⟨rfl, rfl, rfl, rfl, ?_, rfl, rfl, hbound⟩
    show SIGMA_THRESHOLD ≤ |r.numeric_value - s.mean_val| / s.std_val
    have habs : SIGMA_THRESHOLD * s.std_val < |r.numeric_value - s.mean_val| := by
      rcases hbound with hb | hb
      · calc SIGMA_THRESHOLD * s.std_val < s.mean_val - r.numeric_value := by linarith
        _ ≤ |s.mean_val - r.numeric_value| := le_abs_self _
        _ = |r.numeric_value - s.mean_val| := abs_sub_comm _ _
      · calc SIGMA_THRESHOLD * s.std_val < r.numeric_value - s.mean_val := by linarith
        _ ≤ |r.numeric_value - s.mean_val| := le_abs_self _
    rw [le_div_iff₀ hstdpos]
    linarith

theorem find_outliers_deviation_spec_witness :
    egRecA ∈ find_outliers_in_states [egSource] 200 ∧
    ∃ s ∈ [egSource],
      egRecA.metadata_id = s.metadata_id ∧
      egRecA.mean = s.mean_val ∧
      egRecA.total_samples = s.cnt ∧
      egRecA.deviation = |egRecA.value - s.mean_val| / s.std_val ∧
      SIGMA_THRESHOLD ≤ egRecA.deviation ∧
      egRecA.lower_bound = s.mean_val - SIGMA_THRESHOLD * s.std_val ∧
      egRecA.upper_bound = s.mean_val + SIGMA_THRESHOLD * s.std_val ∧
      (egRecA.value < egRecA.lower_bound ∨ egRecA.upper_bound < egRecA.value) := by
  have hfetch : fetchOutOfBounds egSource = [⟨1, 42, 100⟩] := by
    rw [fetchOutOfBounds, egSource]
    norm_num [List.filter_cons, List.filter_nil, SIGMA_THRESHOLD]
  have hsrc : sourceOutliers 200 egSource = [egRecA] := by
    rw [sourceOutliers, if_neg (by norm_num [egSource])]
    simp only [hfetch]
    norm_num [countQuant, List.filter_cons, List.filter_nil, List.map_cons,
      List.map_nil, mkOutlierRec, egRecA, egSource, SIGMA_THRESHOLD,
      FREQUENCY_THRESHOLD]
  have hmem : egRecA ∈ find_outliers_in_states [egSource] 200 := by
    rw [find_outliers_in_states]
    simp [hsrc]
  exact ⟨hmem, find_outliers_deviation_spec [egSource] 200
    (by intro s hs; rw [List.mem_singleton] at hs; subst hs; norm_num [egSource])
    egRecA hmem⟩

/-- C2: a fetched out-of-bounds row survives the frequency filter (i.e. its
record appears in the source's outliers) if and only if the occurrence
count of its value quantized to 6 significant digits, among that source's
fetched outlier rows, does not exceed `total_samples * FREQUENCY_THRESHOLD`. -/
theorem frequency_filter (s : SourceData) (min_samples : ℕ)
    (h1 : ¬s.cnt < min_samples) (h2 : s.std_val ≠ 0) :
    ∀ r ∈ fetchOutOfBounds s,
      (mkOutlierRec s (s.mean_val - SIGMA_THRESHOLD * s.std_val)
          (s.mean_val + SIGMA_THRESHOLD * s.std_val) r ∈ sourceOutliers min_samples s ↔
        ((countQuant (fetchOutOfBounds s) r.numeric_value : ℚ) ≤
          (s.cnt : ℚ) * FREQUENCY_THRESHOLD)) := by
  intro r hr
  rw [sourceOutliers, if_neg (not_or.mpr ⟨h1, h2⟩)]
  simp only [List.mem_map]
  constructor
  · rintro ⟨r', hr', heq⟩
    obtain ⟨_, hkeep⟩ := List.mem_filter.mp hr'
    have hval : r'.numeric_value = r.numeric_value := by
      simpa [mkOutlierRec] using congrArg OutlierRec.value heq
    rw [Bool.not_eq_eq_eq_not, Bool.not_true, decide_eq_false_iff_not, not_lt, hval]
      at hkeep
    exact hkeep
  · intro hle
    refine ⟨r, List.mem_filter.mpr ⟨hr, ?_⟩, rfl⟩
    rw [Bool.not_eq_eq_eq_not, Bool.not_true, decide_eq_false_iff_not, not_lt]
    exact hle

theorem frequency_filter_witness :
    mkOutlierRec egSourceFreq
        (egSourceFreq.mean_val - SIGMA_THRESHOLD * egSourceFreq.std_val)
        (egSourceFreq.mean_val + SIGMA_THRESHOLD * egSourceFreq.std_val) egRowB ∈
      sourceOutliers 200 egSourceFreq ∧
    mkOutlierRec egSourceFreq
        (egSourceFreq.mean_val - SIGMA_THRESHOLD * egSourceFreq.std_val)
        (egSourceFreq.mean_val + SIGMA_THRESHOLD * egSourceFreq.std_val) egRowA ∉
      sourceOutliers 200 egSourceFreq := by
  have hq200 : quantize6 (200 : ℚ) = 200 := by
    have hn : Nat.log 10 200 = 2 :=
      Nat.log_eq_of_pow_le_of_lt_pow (by norm_num) (by norm_num)
    norm_num [quantize6, hn, round_eq]
  have hq300 : quantize6 (300 : ℚ) = 300 := by
    have hn : Nat.log 10 300 = 2 :=
      Nat.log_eq_of_pow_le_of_lt_pow (by norm_num) (by norm_num)
    norm_num [quantize6, hn, round_eq]
  have hfetch : fetchOutOfBounds egSourceFreq = egRowsFreq := by
    rw [fetchOutOfBounds, egSourceFreq, egRowsFreq]
    norm_num [List.filter_cons, List.filter_nil, SIGMA_THRESHOLD]
  have hcountA : countQuant (fetchOutOfBounds egSourceFreq) (200 : ℚ) = 11 := by
    rw [hfetch, countQuant, egRowsFreq]
    norm_num [List.filter_cons, List.filter_nil, hq200, hq300]
  have hcountB : countQuant (fetchOutOfBounds egSourceFreq) (300 : ℚ) = 9 := by
    rw [hfetch, countQuant, egRowsFreq]
    norm_num [List.filter_cons, List.filter_nil, hq200, hq300]
  have h := frequency_filter egSourceFreq 200 (by norm_num [egSourceFreq])
    (by norm_num [egSourceFreq])
  have hBmem : egRowB ∈ fetchOutOfBounds egSourceFreq := by
    rw [hfetch, egRowsFreq, egRowB]
    simp
  have hAmem : egRowA ∈ fetchOutOfBounds egSourceFreq := by
    rw [hfetch, egRowsFreq, egRowA]
    simp
  constructor
  · refine (h egRowB hBmem).mpr ?_
    rw [show egRowB.numeric_value = (300 : ℚ) from rfl, hcountB]
    norm_num [egSourceFreq, FREQUENCY_THRESHOLD]
  · intro hmem
    have hle := (h egRowA hAmem).mp hmem
    rw [show egRowA.numeric_value = (200 : ℚ) from rfl, hcountA] at hle
    norm_num [egSourceFreq, FREQUENCY_THRESHOLD] at hle

/-- C4: each produced group's count equals the lengths of its member-id,
member-timestamp and member-value lists and brackets all member values in
`[min_value, max_value]`; group keys are pairwise distinct; and (for inputs
with distinct record ids, as the database's primary keys are) every input
record is a member of exactly one group. -/
theorem group_outliers_invariants (os : List OutlierRec)
    (hids : (os.map OutlierRec.id).Nodup) :
    (∀ g ∈ group_outliers os,
        g.count = g.ids.length ∧ g.count = g.timestamps.length ∧
        g.count = g.values.length ∧
        (∀ v ∈ g.values, g.min_value ≤ v ∧ v ≤ g.max_value)) ∧
    ((group_outliers os).map keyOfGroup).Nodup ∧
    (∀ o ∈ os, ∃ g, g ∈ group_outliers os ∧ o.id ∈ g.ids ∧
        (∀ g2, g2 ∈ group_outliers os → o.id ∈ g2.ids → g2 = g)) := by
  obtain ⟨hnd, hspec, hcov⟩ := foldInv_groupFold os
  have hperm : (group_outliers os).Perm ((groupFold os).map Prod.snd) :=
    List.mergeSort_perm _ _
  have hmem_iff : ∀ g, g ∈ group_outliers os ↔ ∃ k, (k, g) ∈ groupFold os := by
    intro g
    rw [hperm.mem_iff, List.mem_map]
    constructor
    · rintro ⟨⟨k, g'⟩, hkg, rfl⟩
      exact ⟨k, hkg⟩
    · rintro ⟨k, hkg⟩
      exact ⟨(k, g), hkg, rfl⟩
  refine ⟨?_, ?_, ?_⟩
  · intro g hg
    obtain ⟨k, hkg⟩ := (hmem_iff g).mp hg
    obtain ⟨hhead, hids', hts, hvals, hcount, hmin, hmax, hbounds, hrem⟩ :=
      hspec k g hkg
    exact ⟨by rw [hcount, hids', List.length_map],
      by rw [hcount, hts, List.length_map],
      by rw [hcount, hvals, List.length_map], hbounds⟩
  · have hmapeq : ((groupFold os).map Prod.snd).map keyOfGroup =
        (groupFold os).map Prod.fst := by
      rw [List.map_map]
      refine List.map_congr_left ?_
      intro kg hkg
      exact (key_eq_keyOfGroup os kg.1 kg.2 (hspec kg.1 kg.2 hkg)).symm
    have hp : ((group_outliers os).map keyOfGroup).Perm ((groupFold os).map Prod.fst) := by
      rw [← hmapeq]
      exact hperm.map keyOfGroup
    exact hp.nodup_iff.mpr hnd
  · intro o ho
    obtain ⟨kg, hkg0, hfst⟩ := List.mem_map.mp (hcov o ho)
    obtain ⟨k, g⟩ := kg
    have hk : k = keyOf o := hfst
    subst hk
    obtain ⟨hhead, hids', hts, hvals, hcount, hmin, hmax, hbounds, hrem⟩ :=
      hspec _ g hkg0
    have hg_mem : g ∈ group_outliers os := (hmem_iff g).mpr ⟨keyOf o, hkg0⟩
    have ho_in : o ∈ groupRecs os (keyOf o) := List.mem_filter.mpr ⟨ho, by simp⟩
    have hid_in : o.id ∈ g.ids := by
      rw [hids']
      exact List.mem_map.mpr ⟨o, ho_in, rfl⟩
    refine ⟨g, hg_mem, hid_in, ?_⟩
    intro g2 hg2 hid2
    obtain ⟨k2, hkg2⟩ := (hmem_iff g2).mp hg2
    obtain ⟨hhead2, hids2, _⟩ := hspec k2 g2 hkg2
    rw [hids2] at hid2
    obtain ⟨o2, ho2, hideq⟩ := List.mem_map.mp hid2
    have ho2os : o2 ∈ os := (List.mem_filter.mp ho2).1
    have hk2 : keyOf o2 = k2 := by
      have := (List.mem_filter.mp ho2).2
      rwa [decide_eq_true_iff] at this
    have ho2eq : o2 = o := List.inj_on_of_nodup_map hids ho2os ho hideq
    subst ho2eq
    rw [← hk2] at hkg2
    exact groupFold_key_unique os hkg2 hkg0

/-- C5: when the input is sorted descending by deviation, each group's
representative record fields are those of the first (hence
highest-deviation) input record for its key, every member's deviation is
bounded by the representative deviation, and the output group list is
sorted descending by representative deviation. -/
theorem group_outliers_representative (os : List OutlierRec)
    (hsorted : os.Sorted (fun a b => b.deviation ≤ a.deviation)) :
    (∀ g ∈ group_outliers os,
      (groupRecs os (keyOfGroup g)).head? = some g.toOutlierRec ∧
      (∀ o ∈ os, keyOf o = keyOfGroup g → o.deviation ≤ g.deviation)) ∧
    (group_outliers os).Sorted (fun a b => b.deviation ≤ a.deviation) := by
  obtain ⟨hnd, hspec, hcov⟩ := foldInv_groupFold os
  have hperm : (group_outliers os).Perm ((groupFold os).map Prod.snd) :=
    List.mergeSort_perm _ _
  refine ⟨?_, ?_⟩
  · intro g hg
    obtain ⟨⟨k, g'⟩, hkg, hsnd⟩ := List.mem_map.mp (hperm.mem_iff.mp hg)
    have hg' : g' = g := hsnd
    subst hg'
    have hkey : k = keyOfGroup g' := key_eq_keyOfGroup os k g' (hspec k g' hkg)
    obtain ⟨hhead, hids', hts, hvals, hcount, hmin, hmax, hbounds, hrem⟩ :=
      hspec k g' hkg
    constructor
    · rw [← hkey]
      exact hhead
    · intro o ho hko
      have hkok : keyOf o = k := hko.trans hkey.symm
      have ho_in : o ∈ groupRecs os k :=
        List.mem_filter.mpr ⟨ho, by rw [decide_eq_true_iff]; exact hkok⟩
      have hps : (groupRecs os k).Pairwise (fun a b => b.deviation ≤ a.deviation) :=
        List.Pairwise.filter _ hsorted
      cases hrec : groupRecs os k with
      | nil =>
        rw [hrec] at hhead
        simp at hhead
      | cons a t =>
        rw [hrec] at hhead hps ho_in
        simp only [List.head?_cons, Option.some.injEq] at hhead
        rcases List.mem_cons.mp ho_in with rfl | hot
        · rw [hhead]
        · have hrel := List.rel_of_pairwise_cons hps hot
          rw [hhead] at hrel
          exact hrel
  · have htrans : ∀ a b c : OutlierGroup, byDeviationDescG a b = true →
        byDeviationDescG b c = true → byDeviationDescG a c = true := by
      intro a b c hab hbc
      rw [byDeviationDescG, decide_eq_true_iff] at hab hbc ⊢
      exact le_trans hbc hab
    have htot : ∀ a b : OutlierGroup,
        (byDeviationDescG a b || byDeviationDescG b a) = true := by
      intro a b
      rw [Bool.or_eq_true, byDeviationDescG, byDeviationDescG,
        decide_eq_true_iff, decide_eq_true_iff]
      exact le_total b.deviation a.deviation
    have h := List.sorted_mergeSort htrans htot ((groupFold os).map Prod.snd)
    rw [group_outliers]
    exact h.imp fun hab => by rwa [byDeviationDescG, decide_eq_true_iff] at hab

theorem group_outliers_invariants_witness :
    (∀ g ∈ group_outliers egOs,
        g.count = g.ids.length ∧ g.count = g.timestamps.length ∧
        g.count = g.values.length ∧
        (∀ v ∈ g.values, g.min_value ≤ v ∧ v ≤ g.max_value)) ∧
    ((group_outliers egOs).map keyOfGroup).Nodup ∧
    (∀ o ∈ egOs, ∃ g, g ∈ group_outliers egOs ∧ o.id ∈ g.ids ∧
        (∀ g2, g2 ∈ group_outliers egOs → o.id ∈ g2.ids → g2 = g)) :=
  group_outliers_invariants egOs (by simp [egOs, egRec1, egRec2])

theorem group_outliers_representative_witness :
    (∀ g ∈ group_outliers egOs,
      (groupRecs egOs (keyOfGroup g)).head? = some g.toOutlierRec ∧
      (∀ o ∈ egOs, keyOf o = keyOfGroup g → o.deviation ≤ g.deviation)) ∧
    (group_outliers egOs).Sorted (fun a b => b.deviation ≤ a.deviation) :=
  group_outliers_representative egOs (by norm_num [egOs, List.sorted_cons, egRec1, egRec2])

end HaOutliers
